import Mathlib

/-!
Verification of the LKGM candidate manager (`src/buildbot/lkgm_manager.py`).

The development shallowly embeds the version parsing / formatting logic of
`_LKGMCandidateInfo`, the candidate derivation `_GetLatestCandidateByVersion`,
the builder status polling loop `GetBuildersStatus`, and the promotion retry
loop `PromoteCandidate`.  Machine integers are `Nat` (Python ints are
unbounded), fallible operations return `Option` or an explicit result type,
and external collaborators (the shared git store, the filesystem markers and
the wall clock) are passed in as explicit oracles.
-/

/-! ## Decimal digit strings

Python renders the five version components with `'%s' % n`, i.e. decimal
notation, and converts matched digit runs back with `int(...)`. -/

/-- The character for a single decimal digit value. -/
def digitChar (d : Nat) : Char := Char.ofNat (48 + d)

/-- Decimal rendering of a natural number, fuel-based so that it is
structurally recursive (the fuel `n + 1` always suffices). -/
def natToDigitsCore (fuel : Nat) (n : Nat) : List Char :=
  match fuel with
  | 0 => []
  | fuel + 1 =>
    if n < 10 then [digitChar n]
    else natToDigitsCore fuel (n / 10) ++ [digitChar (n % 10)]

/-- Decimal rendering of a natural number, most significant digit first. -/
def natToDigits (n : Nat) : List Char := natToDigitsCore (n + 1) n

/-- Embedding of Python `int(...)` applied to a run of decimal digits. -/
def digitsToNat (ds : List Char) : Nat :=
  ds.foldl (fun a c => a * 10 + (c.toNat - 48)) 0

/-- Decimal rendering as a `String` (Python `'%s' % n`). -/
def natStr (n : Nat) : String := String.mk (natToDigits n)

/-! ## `_LKGMCandidateInfo`: parsing and formatting

Source: `_LKGMCandidateInfo.__init__` matches
`LKGM_RE = '(\d+\.\d+\.\d+\.\d+)(?:-rc(\d+))?'` with `re.search` (leftmost
match, anywhere in the string), asserts on failure, hands group 1 to the
external `manifest_version.VersionInfo` constructor, and defaults a missing
or zero revision to `1`.

The superclass `manifest_version.VersionInfo` is not under `src/`.
Modelled from the spec: it parses the 4-component string
`major.minor.sp.patch` (which group 1 guarantees structurally) into the four
integer fields `ver_maj`, `ver_min`, `ver_sp`, `ver_patch`. -/

/-- The five version components held by `_LKGMCandidateInfo`. -/
structure LKGMInfo where
  ver_maj : Nat
  ver_min : Nat
  ver_sp : Nat
  ver_patch : Nat
  ver_revision : Nat
deriving DecidableEq, Repr

/-- Match `\d+\.` at the head of the character list: a maximal nonempty digit
run followed by a literal dot.  Returns the digit run and the remainder after
the dot.  (The run is forced maximal: shortening a greedy `\d+` would leave a
digit where `\.` must match.) -/
def matchComp (cs : List Char) : Option (List Char × List Char) :=
  let ds := cs.takeWhile Char.isDigit
  let rest := cs.dropWhile Char.isDigit
  if ds.isEmpty then none
  else if rest.head? = some '.' then some (ds, rest.tail) else none

/-- Match the optional group `(?:-rc(\d+))?` at the given position: returns
the revision group when `-rc` followed by at least one digit is present,
`none` when the optional group matches empty. -/
def matchRc (cs : List Char) : Option Nat :=
  if cs.take 3 = ['-', 'r', 'c'] then
    let ds := (cs.drop 3).takeWhile Char.isDigit
    if ds.isEmpty then none else some (digitsToNat ds)
  else none

/-- Match the full pattern `(\d+\.\d+\.\d+\.\d+)(?:-rc(\d+))?` anchored at the
head of the character list (trailing characters are allowed, as in a regex
match at a fixed start position).  Returns the four integers of group 1 and
the optional revision of group 2. -/
def matchAt (cs : List Char) : Option ((Nat × Nat × Nat × Nat) × Option Nat) :=
  (matchComp cs).bind fun p1 =>
    (matchComp p1.2).bind fun p2 =>
      (matchComp p2.2).bind fun p3 =>
        let d4 := p3.2.takeWhile Char.isDigit
        if d4.isEmpty then none
        else
          some ((digitsToNat p1.1, digitsToNat p2.1, digitsToNat p3.1, digitsToNat d4),
                matchRc (p3.2.dropWhile Char.isDigit))

/-- `re.search`: try the pattern at every start position, leftmost first. -/
def regexSearch : List Char → Option ((Nat × Nat × Nat × Nat) × Option Nat)
  | [] => matchAt []
  | c :: rest =>
    if (matchAt (c :: rest)).isSome then matchAt (c :: rest) else regexSearch rest

/-- Revision defaulting of `_LKGMCandidateInfo.__init__`: `ver_revision` stays
`None` when group 2 is absent, is `int(group(2))` otherwise, and the final
`if not self.ver_revision` replaces both `None` and `0` by `1`. -/
def revFromGroup : Option Nat → Nat
  | none => 1
  | some n => if n = 0 then 1 else n

/-- `_LKGMCandidateInfo(version_string)`: `re.search` the pattern, assert on
failure (`none` models the `AssertionError`), apply revision defaulting. -/
def lkgmCandidateInfo (version_string : String) : Option LKGMInfo :=
  match regexSearch version_string.data with
  | none => none
  | some ((a, b, c, d), rc) => some ⟨a, b, c, d, revFromGroup rc⟩

/-- The formatted string `'%s.%s.%s.%s-rc%s'` over five components. -/
def mkVersionString (a b c d r : Nat) : String :=
  natStr a ++ "." ++ natStr b ++ "." ++ natStr c ++ "." ++ natStr d ++ "-rc" ++ natStr r

/-- `_LKGMCandidateInfo.VersionString`. -/
def VersionString (i : LKGMInfo) : String :=
  mkVersionString i.ver_maj i.ver_min i.ver_sp i.ver_patch i.ver_revision

/-- The 5-integer comparison key `[maj, min, sp, patch, revision]`. -/
def toKey (i : LKGMInfo) : List Nat :=
  [i.ver_maj, i.ver_min, i.ver_sp, i.ver_patch, i.ver_revision]

/-- `_LKGMCandidateInfo.VersionCompare`: parse the string and return
`map(int, [maj, min, sp, patch, revision])`; `none` models the assert
failure on a malformed string. -/
def VersionCompare (version_string : String) : Option (List Nat) :=
  (lkgmCandidateInfo version_string).map toKey

/-- `_LKGMCandidateInfo.IncrementVersion`: `self.ver_revision += 1` then
`return self.VersionString()`.  The Python method mutates `self`; the
embedding returns the post-state together with the returned string. -/
def IncrementVersion (v : LKGMInfo) : LKGMInfo × String :=
  let v' : LKGMInfo := { v with ver_revision := v.ver_revision + 1 }
  (v', VersionString v')

/-! ## Spec-side pattern definitions (for claim C5)

These follow the spec's words: an input "matches the pattern
`\d+\.\d+\.\d+\.\d+(-rc\d+)?`" when the whole string is of that shape;
`hasMatchAnywhere` is the weaker condition that some contiguous substring
matches, which is what `re.search` actually tests. -/

/-- The tail of a full match after the four components: either the end of the
string, or `-rc` followed by digits reaching the end of the string. -/
def specRcTail (cs : List Char) : Bool :=
  if cs = [] then true
  else if cs.take 3 = ['-', 'r', 'c'] then
    let rest := cs.drop 3
    let ds := rest.takeWhile Char.isDigit
    if ds.isEmpty then false else (rest.dropWhile Char.isDigit).isEmpty
  else false

/-- The whole character list matches `\d+\.\d+\.\d+\.\d+(-rc\d+)?`. -/
def specFullMatch (cs : List Char) : Bool :=
  (((matchComp cs).bind fun p1 =>
    (matchComp p1.2).bind fun p2 =>
      (matchComp p2.2).map fun p3 =>
        let d4 := p3.2.takeWhile Char.isDigit
        !d4.isEmpty && specRcTail (p3.2.dropWhile Char.isDigit))).getD false

/-- Some prefix of the character list matches the whole pattern. -/
def prefixMatchExists (cs : List Char) : Bool :=
  (List.range (cs.length + 1)).any fun n => specFullMatch (cs.take n)

/-- Some contiguous substring of the character list matches the pattern. -/
def hasMatchAnywhere : List Char → Bool
  | [] => prefixMatchExists []
  | c :: rest => prefixMatchExists (c :: rest) || hasMatchAnywhere rest

/-! ## Python list comparison and stable sort by key

`sorted(matched_lkgms, key=self.compare_versions_fn)[-1]` sorts by the
5-integer key lists; Python compares lists of ints lexicographically.  The
stable sort is embedded as a stable insertion sort on (string, key) pairs. -/

/-- Python `<` on lists of ints: lexicographic, shorter-is-smaller on a tie. -/
def pyListLt : List Nat → List Nat → Bool
  | [], [] => false
  | [], _ :: _ => true
  | _ :: _, [] => false
  | a :: as, b :: bs => if a < b then true else if b < a then false else pyListLt as bs

/-- Python `<=` on lists of ints (the sort's ordering predicate). -/
def pyListLe (a b : List Nat) : Bool := !(pyListLt b a)

/-- Stable insertion of a (string, key) pair into an ascending list. -/
def insertPair (x : String × List Nat) : List (String × List Nat) → List (String × List Nat)
  | [] => [x]
  | y :: ys => if pyListLe x.2 y.2 then x :: y :: ys else y :: insertPair x ys

/-- Stable insertion sort of (string, key) pairs, ascending by key. -/
def pySortPairs : List (String × List Nat) → List (String × List Nat)
  | [] => []
  | x :: xs => insertPair x (pySortPairs xs)

/-- Compute the sort key for every string; `none` if `VersionCompare` asserts
on any of them (as `sorted` would propagate the exception). -/
def computeKeys : List String → Option (List (String × List Nat))
  | [] => some []
  | s :: rest =>
    match VersionCompare s, computeKeys rest with
    | some k, some ps => some ((s, k) :: ps)
    | _, _ => none

/-- Python `str.startswith`. -/
def pyStartsWith (s pre : String) : Bool := pre.data.isPrefixOf s.data

/-! ## `_GetLatestCandidateByVersion`

The baseline `version_info` is an instance of the external
`manifest_version.VersionInfo` (not under `src/`).
Modelled from the spec: its `VersionString` formats the baseline as the
4-component string `major.minor.sp.patch` (no `-rc` suffix). -/

/-- The baseline version held by the external `VersionInfo` collaborator. -/
structure BaseVersion where
  ver_maj : Nat
  ver_min : Nat
  ver_sp : Nat
  ver_patch : Nat
deriving DecidableEq, Repr

/-- Modelled from the spec: the external `VersionInfo.VersionString`, the
baseline formatted as `major.minor.sp.patch`. -/
def versionString4 (v : BaseVersion) : String :=
  natStr v.ver_maj ++ "." ++ natStr v.ver_min ++ "." ++ natStr v.ver_sp ++ "." ++ natStr v.ver_patch

/-- `LKGMManager._GetLatestCandidateByVersion`: if the stored candidate list
(`self.all`) is nonempty, keep the strings starting with the baseline's
formatted string; if any matched, reparse the maximum under the
`VersionCompare` sort key; otherwise reparse the baseline's formatted string
(whose revision defaults to 1). -/
def _GetLatestCandidateByVersion (all : List String) (v : BaseVersion) : Option LKGMInfo :=
  match all with
  | [] => lkgmCandidateInfo (versionString4 v)
  | _ :: _ =>
    match all.filter (fun s => pyStartsWith s (versionString4 v)) with
    | [] => lkgmCandidateInfo (versionString4 v)
    | m :: ms =>
      match computeKeys (m :: ms) with
      | none => none
      | some pairs =>
        match (pySortPairs pairs).getLast? with
        | none => none
        | some p => lkgmCandidateInfo p.1

/-! ## `GetBuildersStatus`

The marker files (`pass`, `fail`, `inflight` per builder, under paths built
from the current version and `DirPrefix`) live in the shared store; their
existence at poll iteration `t` is abstracted as the oracle
`mk : Nat → String → Markers` (three `os.path.lexists` answers).  The wall
clock readings `time.time() - start_time` taken at the top of each loop
iteration are the oracle `clock : Nat → Nat`.  `_SyncGitRepo` only refreshes
the store and does not touch the tracked state.  The loop is embedded with
explicit fuel; the claims hold for every fuel. -/

/-- Existence of the three marker files for one builder at one instant. -/
structure Markers where
  passExists : Bool
  failExists : Bool
  inflightExists : Bool
deriving DecidableEq, Repr

/-- The status check priority: `pass`, then `fail`, then `inflight`, else
`None` (the code stores `None` in the dictionary). -/
def checkMarkers (m : Markers) : Option String :=
  if m.passExists then some "pass"
  else if m.failExists then some "fail"
  else if m.inflightExists then some "inflight"
  else none

/-- The mutable loop state: the `builder_statuses` dictionary (outer `none`
models a key absent from the dict, `some none` a key stored with `None`) and
the `num_complete` counter. -/
structure PollState where
  statuses : String → Option (Option String)
  num_complete : Nat

/-- `builder_statuses.get(builder, None) in ['pass', 'fail']` (a missing key
and a stored `None` both compare unequal to the two terminal strings). -/
def isTerminalEntry : Option (Option String) → Bool
  | some (some s) => s == "pass" || s == "fail"
  | _ => false

/-- The per-builder body of the polling loop: skip builders already terminal;
otherwise consult the markers, store the result, and bump `num_complete` on a
terminal result. -/
def stepBuilder (mk : String → Markers) (s : PollState) (b : String) : PollState :=
  if isTerminalEntry (s.statuses b) then s
  else
    let st := checkMarkers (mk b)
    { statuses := fun x => if x = b then some st else s.statuses x,
      num_complete :=
        if st == some "pass" || st == some "fail" then s.num_complete + 1
        else s.num_complete }

/-- One full pass of the `for builder in builders_array` loop. -/
def runIteration (mk : String → Markers) (builders : List String) (s : PollState) : PollState :=
  builders.foldl (stepBuilder mk) s

/-- `LKGMManager.MAX_TIMEOUT_SECONDS`. -/
def MAX_TIMEOUT_SECONDS : Nat := 300

/-- `LKGMManager.SLEEP_TIMEOUT`. -/
def SLEEP_TIMEOUT : Nat := 30

/-- The `while (time.time() - start_time) < self.MAX_TIMEOUT_SECONDS` loop.
Returns the final state and whether the loop exited through the `break`
(every builder terminal) rather than through the time guard.  Fuel
exhaustion (unreachable for sufficient fuel) also reports `false`. -/
def pollAux (mk : Nat → String → Markers) (clock : Nat → Nat) (builders : List String) :
    Nat → Nat → PollState → PollState × Bool
  | 0, _, s => (s, false)
  | fuel + 1, t, s =>
    if clock t < MAX_TIMEOUT_SECONDS then
      let s' := runIteration (mk t) builders s
      if s'.num_complete < builders.length then pollAux mk clock builders fuel (t + 1) s'
      else (s', true)
    else (s, false)

/-- The empty dictionary and zero counter the call starts from. -/
def initialPollState : PollState := ⟨fun _ => none, 0⟩

/-- `LKGMManager.GetBuildersStatus` over the marker and clock oracles. -/
def GetBuildersStatus (mk : Nat → String → Markers) (clock : Nat → Nat)
    (builders : List String) (fuel : Nat) : PollState × Bool :=
  pollAux mk clock builders fuel 0 initialPollState

/-- The state reached after exactly `t` poll iterations from the start. -/
def iterStates (mk : Nat → String → Markers) (builders : List String) : Nat → PollState
  | 0 => initialPollState
  | t + 1 => runIteration (mk t) builders (iterStates mk builders t)

/-! ## `PromoteCandidate`

One promotion attempt is `_PrepSpecChanges`; symlink; `git add`;
`_PushSpecChanges` — all external commands whose joint outcome at attempt
`i` is abstracted as `attempt i : Option String` (`none` = success, `some e`
= a `GitCommandException` / `RunCommandError` with message `e`).  The two
leading `assert` statements are modelled as a distinct failure kind. -/

/-- Outcome of `PromoteCandidate`: normal return, the
`PromoteCandidateException` raised after the `for`/`else`, or one of the two
`assert` failures (an `AssertionError`, a different exception type). -/
inductive PromoteResult where
  | ok (attemptsMade : Nat)
  | exn (message : String) (attemptsMade : Nat)
  | assertFailed (message : String)
deriving DecidableEq, Repr

/-- `last_error = 'Failed to promote manifest. error: %s' % e`. -/
def promoteErrorMessage (e : String) : String :=
  "Failed to promote manifest. error: " ++ e

/-- The `for index in range(0, retries + 1)` loop with its `else` clause:
return on the first successful attempt, remember the wrapped message of each
failure, raise with the last message when the range is exhausted. -/
def promoteLoop (attempt : Nat → Option String) (index : Nat) (lastError : String) :
    Nat → PromoteResult
  | 0 => .exn lastError index
  | fuel + 1 =>
    match attempt index with
    | none => .ok (index + 1)
    | some e => promoteLoop attempt (index + 1) (promoteErrorMessage e) fuel

/-- `LKGMManager.PromoteCandidate`: assert a current version exists, assert
the candidate manifest exists locally, then run the retry loop for
`retries + 1` attempts.  The initial `lastError` string models Python's
still-unbound `last_error` and is unreachable since the range is nonempty. -/
def PromoteCandidate (current_version : Option String) (candidateExistsLocally : Bool)
    (attempt : Nat → Option String) (retries : Nat) : PromoteResult :=
  match current_version with
  | none => .assertFailed "No current manifest exists."
  | some _ =>
    if candidateExistsLocally then promoteLoop attempt 0 "" (retries + 1)
    else .assertFailed "Candidate not found locally."

/-! ## Auxiliary predicates used by the claim statements -/

/-- Exactly one of three alternatives holds. -/
def exactlyOneOfThree (p q r : Prop) : Prop :=
  (p ∧ ¬ q ∧ ¬ r) ∨ (¬ p ∧ q ∧ ¬ r) ∨ (¬ p ∧ ¬ q ∧ r)

/-- Lexicographic order on the 5-tuple of version components. -/
def tupleLexLt (i j : LKGMInfo) : Prop :=
  i.ver_maj < j.ver_maj ∨ (i.ver_maj = j.ver_maj ∧
    (i.ver_min < j.ver_min ∨ (i.ver_min = j.ver_min ∧
      (i.ver_sp < j.ver_sp ∨ (i.ver_sp = j.ver_sp ∧
        (i.ver_patch < j.ver_patch ∨ (i.ver_patch = j.ver_patch ∧
          i.ver_revision < j.ver_revision)))))))

/-- A dictionary entry is `unset` (absent or `None`), `pass`, `fail` or
`inflight`. -/
def entryOk (e : Option (Option String)) : Prop :=
  e = none ∨ e = some none ∨ e = some (some "pass") ∨ e = some (some "fail") ∨
    e = some (some "inflight")

/-! ## Lemmas: decimal digits -/

/-- A digit value below ten renders as a decimal digit character. -/
theorem digitChar_isDigit (d : Nat) (h : d < 10) : (digitChar d).isDigit = true := by
  interval_cases d <;> decide

/-- Code point arithmetic of `digitChar`. -/
theorem digitChar_toNat (d : Nat) (h : d < 10) : (digitChar d).toNat = 48 + d := by
  interval_cases d <;> decide

/-- Every character of a decimal rendering is a digit. -/
theorem natToDigitsCore_digits : ∀ (fuel n : Nat), n < fuel →
    ∀ c ∈ natToDigitsCore fuel n, c.isDigit = true := by
  intro fuel
  induction fuel with
  | zero => intro n h; omega
  | succ fuel ih =>
    intro n h c hc
    simp only [natToDigitsCore] at hc
    by_cases h10 : n < 10
    · simp only [if_pos h10, List.mem_singleton] at hc
      exact hc ▸ digitChar_isDigit n h10
    · simp only [if_neg h10, List.mem_append, List.mem_singleton] at hc
      rcases hc with hc | hc
      · have hdiv : n / 10 < n := Nat.div_lt_self (by omega) (by omega)
        exact ih (n / 10) (by omega) c hc
      · exact hc ▸ digitChar_isDigit (n % 10) (Nat.mod_lt n (by omega))

/-- A decimal rendering is nonempty. -/
theorem natToDigitsCore_ne_nil : ∀ (fuel n : Nat), n < fuel → natToDigitsCore fuel n ≠ [] := by
  intro fuel
  induction fuel with
  | zero => intro n h; omega
  | succ fuel _ =>
    intro n _
    simp only [natToDigitsCore]
    by_cases h10 : n < 10
    · simp [if_pos h10]
    · simp [if_neg h10]

/-- Appending one digit character multiplies the parsed value by ten. -/
theorem digitsToNat_append_digit (xs : List Char) (c : Char) :
    digitsToNat (xs ++ [c]) = digitsToNat xs * 10 + (c.toNat - 48) := by
  simp [digitsToNat, List.foldl_append]

/-- `int(...)` inverts the decimal rendering. -/
theorem digitsToNat_natToDigitsCore : ∀ (fuel n : Nat), n < fuel →
    digitsToNat (natToDigitsCore fuel n) = n := by
  intro fuel
  induction fuel with
  | zero => intro n h; omega
  | succ fuel ih =>
    intro n h
    simp only [natToDigitsCore]
    by_cases h10 : n < 10
    · simp only [if_pos h10]
      have := digitChar_toNat n h10
      simp [digitsToNat, this]
    · simp only [if_neg h10]
      rw [digitsToNat_append_digit]
      have hdiv : n / 10 < n := Nat.div_lt_self (by omega) (by omega)
      rw [ih (n / 10) (by omega)]
      rw [digitChar_toNat (n % 10) (Nat.mod_lt n (by omega))]
      have := Nat.div_add_mod n 10
      omega

/-- Every character of `natToDigits n` is a digit. -/
theorem natToDigits_digits (n : Nat) : ∀ c ∈ natToDigits n, c.isDigit = true :=
  natToDigitsCore_digits (n + 1) n (Nat.lt_succ_self n)

/-- `natToDigits n` is nonempty. -/
theorem natToDigits_ne_nil (n : Nat) : natToDigits n ≠ [] :=
  natToDigitsCore_ne_nil (n + 1) n (Nat.lt_succ_self n)

/-- `int(...)` inverts `natToDigits`. -/
theorem digitsToNat_natToDigits (n : Nat) : digitsToNat (natToDigits n) = n :=
  digitsToNat_natToDigitsCore (n + 1) n (Nat.lt_succ_self n)

/-! ## Lemmas: `takeWhile` / `dropWhile` over a known decomposition -/

/-- A maximal run: `takeWhile` consumes exactly a block of satisfying
characters when the next character (if any) fails the predicate. -/
theorem takeWhile_append_stop (p : Char → Bool) (ds rest : List Char)
    (hds : ∀ c ∈ ds, p c = true)
    (hrest : ∀ c cs, rest = c :: cs → p c = false) :
    (ds ++ rest).takeWhile p = ds ∧ (ds ++ rest).dropWhile p = rest := by
  induction ds with
  | nil =>
    simp only [List.nil_append]
    cases rest with
    | nil => simp [List.takeWhile, List.dropWhile]
    | cons c cs =>
      have hc := hrest c cs rfl
      simp [List.takeWhile, List.dropWhile, hc]
  | cons d ds ih =>
    have hd : p d = true := hds d (by simp)
    have ih' := ih (fun c hc => hds c (by simp [hc]))
    simp [List.takeWhile, List.dropWhile, hd, ih'.1, ih'.2]

/-- `takeWhile` keeps a list all of whose characters satisfy the predicate. -/
theorem takeWhile_all (p : Char → Bool) (ds : List Char)
    (hds : ∀ c ∈ ds, p c = true) :
    ds.takeWhile p = ds ∧ ds.dropWhile p = [] := by
  have := takeWhile_append_stop p ds [] hds (by intro c cs h; cases h)
  simpa using this

/-- `String` append acts as list append on the underlying characters. -/
theorem stringDataAppend (s t : String) : (s ++ t).data = s.data ++ t.data := by
  cases s
  cases t
  rfl

/-- A nonempty list has `isEmpty = false`. -/
theorem isEmpty_false_of_ne_nil {l : List Char} (h : l ≠ []) : l.isEmpty = false := by
  cases l with
  | nil => exact absurd rfl h
  | cons c cs => rfl

/-! ## Lemmas: running the matcher on a formatted version string -/

/-- `matchComp` consumes exactly a nonempty digit run followed by a dot. -/
theorem matchComp_run (ds rest : List Char) (h0 : ds ≠ [])
    (hds : ∀ c ∈ ds, c.isDigit = true) :
    matchComp (ds ++ '.' :: rest) = some (ds, rest) := by
  have hstop := takeWhile_append_stop Char.isDigit ds ('.' :: rest) hds
    (by intro c cs h; cases h; decide)
  simp [matchComp, hstop.1, hstop.2, isEmpty_false_of_ne_nil h0]

/-- `matchRc` accepts `-rc` followed by a pure digit run to the end. -/
theorem matchRc_run (R : List Char) (h0 : R ≠ []) (hR : ∀ c ∈ R, c.isDigit = true) :
    matchRc ('-' :: 'r' :: 'c' :: R) = some (digitsToNat R) := by
  have hall := takeWhile_all Char.isDigit R hR
  simp [matchRc, hall.1, isEmpty_false_of_ne_nil h0]

/-- `matchAt` on a list shaped like a formatted version: four digit runs
separated by dots, then a tail whose head is not a digit. -/
theorem matchAt_run (A B C D tail : List Char)
    (hA : A ≠ []) (hAd : ∀ c ∈ A, c.isDigit = true)
    (hB : B ≠ []) (hBd : ∀ c ∈ B, c.isDigit = true)
    (hC : C ≠ []) (hCd : ∀ c ∈ C, c.isDigit = true)
    (hD : D ≠ []) (hDd : ∀ c ∈ D, c.isDigit = true)
    (htail : ∀ c cs, tail = c :: cs → c.isDigit = false) :
    matchAt (A ++ '.' :: (B ++ '.' :: (C ++ '.' :: (D ++ tail)))) =
      some ((digitsToNat A, digitsToNat B, digitsToNat C, digitsToNat D), matchRc tail) := by
  have h4 := takeWhile_append_stop Char.isDigit D tail hDd htail
  simp only [matchAt, matchComp_run A _ hA hAd, matchComp_run B _ hB hBd,
    matchComp_run C _ hC hCd, Option.some_bind, h4.1, h4.2,
    isEmpty_false_of_ne_nil hD]
  simp

/-- A successful anchored match makes the search succeed immediately. -/
theorem regexSearch_of_matchAt {cs : List Char}
    {g : (Nat × Nat × Nat × Nat) × Option Nat} (h : matchAt cs = some g) :
    regexSearch cs = some g := by
  cases cs with
  | nil => simp [matchAt, matchComp] at h
  | cons c rest => simp [regexSearch, h]

/-- The decomposition of a full formatted version string into digit runs. -/
theorem mkVersionString_data (a b c d r : Nat) :
    (mkVersionString a b c d r).data =
      natToDigits a ++ '.' :: (natToDigits b ++ '.' :: (natToDigits c ++ '.' ::
        (natToDigits d ++ ('-' :: 'r' :: 'c' :: natToDigits r)))) := by
  have hdot : ("." : String).data = ['.'] := rfl
  have hrc : ("-rc" : String).data = ['-', 'r', 'c'] := rfl
  simp [mkVersionString, natStr, stringDataAppend, hdot, hrc]

/-- Parsing a fully formatted five-component string recovers the components,
up to revision defaulting. -/
theorem lkgm_parse_mkVersionString (a b c d r : Nat) :
    lkgmCandidateInfo (mkVersionString a b c d r) =
      some ⟨a, b, c, d, revFromGroup (some r)⟩ := by
  have hm := matchAt_run (natToDigits a) (natToDigits b) (natToDigits c) (natToDigits d)
    ('-' :: 'r' :: 'c' :: natToDigits r)
    (natToDigits_ne_nil a) (natToDigits_digits a)
    (natToDigits_ne_nil b) (natToDigits_digits b)
    (natToDigits_ne_nil c) (natToDigits_digits c)
    (natToDigits_ne_nil d) (natToDigits_digits d)
    (by intro c cs h; cases h; decide)
  rw [matchRc_run (natToDigits r) (natToDigits_ne_nil r) (natToDigits_digits r)] at hm
  simp only [lkgmCandidateInfo, mkVersionString_data, regexSearch_of_matchAt hm,
    digitsToNat_natToDigits]

/-- The 4-component baseline string decomposition. -/
theorem versionString4_data (v : BaseVersion) :
    (versionString4 v).data =
      natToDigits v.ver_maj ++ '.' :: (natToDigits v.ver_min ++ '.' ::
        (natToDigits v.ver_sp ++ '.' :: (natToDigits v.ver_patch ++ ([] : List Char)))) := by
  have hdot : ("." : String).data = ['.'] := rfl
  simp [versionString4, natStr, stringDataAppend, hdot]

/-- Parsing the baseline's 4-component string defaults the revision to 1. -/
theorem lkgm_parse_versionString4 (v : BaseVersion) :
    lkgmCandidateInfo (versionString4 v) =
      some ⟨v.ver_maj, v.ver_min, v.ver_sp, v.ver_patch, 1⟩ := by
  have hm := matchAt_run (natToDigits v.ver_maj) (natToDigits v.ver_min)
    (natToDigits v.ver_sp) (natToDigits v.ver_patch) []
    (natToDigits_ne_nil _) (natToDigits_digits _)
    (natToDigits_ne_nil _) (natToDigits_digits _)
    (natToDigits_ne_nil _) (natToDigits_digits _)
    (natToDigits_ne_nil _) (natToDigits_digits _)
    (by intro c cs h; cases h)
  have hrc : matchRc [] = none := rfl
  rw [hrc] at hm
  simp only [lkgmCandidateInfo, versionString4_data, regexSearch_of_matchAt hm,
    digitsToNat_natToDigits, revFromGroup]

/-! ## Claims C7, C9, C4 -/

/-- Claim C7: `VersionString` always emits the
`{major}.{minor}.{sp}.{patch}-rc{revision}` form, and for every well-formed
version value (one with revision at least 1, the only revisions the
constructor can produce) parsing the formatted string yields the identical
five components back. -/
theorem c7_format_parse_roundtrip (v : LKGMInfo) (h : 1 ≤ v.ver_revision) :
    (∃ s : String, VersionString v = s ++ "-rc" ++ natStr v.ver_revision) ∧
    lkgmCandidateInfo (VersionString v) = some v := by
  constructor
  · exact ⟨natStr v.ver_maj ++ "." ++ natStr v.ver_min ++ "." ++ natStr v.ver_sp ++ "." ++
      natStr v.ver_patch, rfl⟩
  · rw [VersionString, lkgm_parse_mkVersionString]
    have hrev : revFromGroup (some v.ver_revision) = v.ver_revision := by
      simp only [revFromGroup, ite_eq_right_iff]
      omega
    rw [hrev]

/-- Witness for C7 at the concrete version 1.2.3.4-rc5. -/
theorem c7_format_parse_roundtrip_witness :
    1 ≤ (⟨1, 2, 3, 4, 5⟩ : LKGMInfo).ver_revision ∧
    lkgmCandidateInfo (VersionString ⟨1, 2, 3, 4, 5⟩) = some ⟨1, 2, 3, 4, 5⟩ :=
  ⟨by decide, (c7_format_parse_roundtrip ⟨1, 2, 3, 4, 5⟩ (by decide)).2⟩

/-- Claim C9: an explicit `-rc0` revision is treated like an absent revision
and parses to revision 1, so the parse/format round trip fails on
`"1.2.3.4-rc0"`, which re-formats as `"1.2.3.4-rc1"`. -/
theorem c9_zero_revision (a b c d : Nat) :
    lkgmCandidateInfo (mkVersionString a b c d 0) = some ⟨a, b, c, d, 1⟩ ∧
    (lkgmCandidateInfo "1.2.3.4-rc0").map VersionString = some "1.2.3.4-rc1" ∧
    "1.2.3.4-rc1" ≠ "1.2.3.4-rc0" := by
  refine ⟨?_, by decide, by decide⟩
  rw [lkgm_parse_mkVersionString]
  rfl

/-- Claim C4 counterexample: `IncrementVersion` mutates its receiver — after
the call on the version 1.2.3.4-rc1 the object's revision is 2, so the
argument is not left unchanged. -/
theorem c4_counterexample :
    (IncrementVersion ⟨1, 2, 3, 4, 1⟩).1.ver_revision = 2 ∧
    (IncrementVersion ⟨1, 2, 3, 4, 1⟩).1 ≠ ⟨1, 2, 3, 4, 1⟩ := by
  decide

/-- Claim C4 (amended): `IncrementVersion` increments the receiver's revision
in place by one, leaves the other four components unchanged, and returns the
version string of the updated receiver. -/
theorem c4_amended (v : LKGMInfo) :
    (IncrementVersion v).1.ver_revision = v.ver_revision + 1 ∧
    (IncrementVersion v).1.ver_maj = v.ver_maj ∧
    (IncrementVersion v).1.ver_min = v.ver_min ∧
    (IncrementVersion v).1.ver_sp = v.ver_sp ∧
    (IncrementVersion v).1.ver_patch = v.ver_patch ∧
    (IncrementVersion v).2 = VersionString (IncrementVersion v).1 :=
  ⟨rfl, rfl, rfl, rfl, rfl, rfl⟩

/-! ## Lemmas: the Python list order on comparison keys -/

/-- Head/tail characterization of the Python list order. -/
theorem pyListLt_cons (a b : Nat) (as bs : List Nat) :
    pyListLt (a :: as) (b :: bs) = true ↔ (a < b ∨ (a = b ∧ pyListLt as bs = true)) := by
  simp only [pyListLt]
  by_cases h1 : a < b
  · simp [h1]
  · by_cases h2 : b < a
    · simp only [if_neg h1, if_pos h2]
      constructor
      · intro h; cases h
      · rintro (h | ⟨h, _⟩) <;> omega
    · have he : a = b := by omega
      simp only [if_neg h1, if_neg h2]
      constructor
      · intro h; exact Or.inr ⟨he, h⟩
      · rintro (h | ⟨_, h⟩)
        · omega
        · exact h

/-- The Python list order is irreflexive. -/
theorem pyListLt_irrefl : ∀ a : List Nat, pyListLt a a = false := by
  intro a
  induction a with
  | nil => rfl
  | cons x xs ih =>
    apply Bool.eq_false_iff.mpr
    intro h
    rcases (pyListLt_cons x x xs xs).mp h with h1 | ⟨_, h2⟩
    · omega
    · rw [ih] at h2; cases h2

/-- The Python list order is asymmetric. -/
theorem pyListLt_asymm : ∀ a b : List Nat, pyListLt a b = true → pyListLt b a = false := by
  intro a
  induction a with
  | nil =>
    intro b h
    cases b with
    | nil => cases h
    | cons y ys => rfl
  | cons x xs ih =>
    intro b h
    cases b with
    | nil => cases h
    | cons y ys =>
      apply Bool.eq_false_iff.mpr
      intro h2
      rcases (pyListLt_cons x y xs ys).mp h with h1 | ⟨he, hr⟩ <;>
        rcases (pyListLt_cons y x ys xs).mp h2 with g1 | ⟨ge, gr⟩
      · omega
      · omega
      · omega
      · rw [ih ys hr] at gr; cases gr

/-- The Python list order is trichotomous (on all integer lists). -/
theorem pyListLt_trichotomy : ∀ a b : List Nat,
    pyListLt a b = true ∨ a = b ∨ pyListLt b a = true := by
  intro a
  induction a with
  | nil =>
    intro b
    cases b with
    | nil => exact Or.inr (Or.inl rfl)
    | cons y ys => exact Or.inl rfl
  | cons x xs ih =>
    intro b
    cases b with
    | nil => exact Or.inr (Or.inr rfl)
    | cons y ys =>
      rcases Nat.lt_trichotomy x y with h | h | h
      · exact Or.inl ((pyListLt_cons x y xs ys).mpr (Or.inl h))
      · subst h
        rcases ih ys with h2 | h2 | h2
        · exact Or.inl ((pyListLt_cons x x xs ys).mpr (Or.inr ⟨rfl, h2⟩))
        · exact Or.inr (Or.inl (by rw [h2]))
        · exact Or.inr (Or.inr ((pyListLt_cons x x ys xs).mpr (Or.inr ⟨rfl, h2⟩)))
      · exact Or.inr (Or.inr ((pyListLt_cons y x ys xs).mpr (Or.inl h)))

/-- The Python list order is transitive. -/
theorem pyListLt_trans : ∀ a b c : List Nat,
    pyListLt a b = true → pyListLt b c = true → pyListLt a c = true := by
  intro a
  induction a with
  | nil =>
    intro b c hab hbc
    cases c with
    | nil =>
      cases b with
      | nil => cases hbc
      | cons y ys => cases hbc
    | cons z zs => rfl
  | cons x xs ih =>
    intro b c hab hbc
    cases b with
    | nil => cases hab
    | cons y ys =>
      cases c with
      | nil => cases hbc
      | cons z zs =>
        rcases (pyListLt_cons x y xs ys).mp hab with h1 | ⟨he1, hr1⟩ <;>
          rcases (pyListLt_cons y z ys zs).mp hbc with h2 | ⟨he2, hr2⟩
        · exact (pyListLt_cons x z xs zs).mpr (Or.inl (by omega))
        · exact (pyListLt_cons x z xs zs).mpr (Or.inl (by omega))
        · exact (pyListLt_cons x z xs zs).mpr (Or.inl (by omega))
        · exact (pyListLt_cons x z xs zs).mpr (Or.inr ⟨by omega, ih ys zs hr1 hr2⟩)

/-- The key order agrees with lexicographic comparison of 5-tuples. -/
theorem pyListLt_toKey (i j : LKGMInfo) :
    pyListLt (toKey i) (toKey j) = true ↔ tupleLexLt i j := by
  simp only [toKey, tupleLexLt, pyListLt_cons]
  have hnil : pyListLt [] [] = false := rfl
  rw [hnil]
  simp

/-- Trichotomy in the exactly-one form. -/
theorem pyListLt_exactlyOne (a b : List Nat) :
    exactlyOneOfThree (pyListLt a b = true) (a = b) (pyListLt b a = true) := by
  rcases pyListLt_trichotomy a b with h | h | h
  · refine Or.inl ⟨h, fun he => ?_, fun hg => ?_⟩
    · subst he; rw [pyListLt_irrefl] at h; cases h
    · rw [pyListLt_asymm a b h] at hg; cases hg
  · subst h
    refine Or.inr (Or.inl ⟨fun hl => ?_, rfl, fun hg => ?_⟩)
    · rw [pyListLt_irrefl] at hl; cases hl
    · rw [pyListLt_irrefl] at hg; cases hg
  · refine Or.inr (Or.inr ⟨fun hl => ?_, fun he => ?_, h⟩)
    · rw [pyListLt_asymm b a h] at hl; cases hl
    · subst he; rw [pyListLt_irrefl] at h; cases h

/-! ## Claim C3 -/

/-- Claim C3: the `VersionCompare` sort key induces a strict total order on
well-formed version strings, coinciding with lexicographic comparison of the
integer 5-tuples; in particular 1.2.3.4-rc1 sorts below 1.2.3.4-rc2 and
below 1.2.3.5-rc1. -/
theorem c3_compare_strict_total_order (s1 s2 : String) (i1 i2 : LKGMInfo)
    (h1 : lkgmCandidateInfo s1 = some i1) (h2 : lkgmCandidateInfo s2 = some i2) :
    VersionCompare s1 = some (toKey i1) ∧ VersionCompare s2 = some (toKey i2) ∧
    (pyListLt (toKey i1) (toKey i2) = true ↔ tupleLexLt i1 i2) ∧
    exactlyOneOfThree (pyListLt (toKey i1) (toKey i2) = true) (toKey i1 = toKey i2)
      (pyListLt (toKey i2) (toKey i1) = true) ∧
    VersionCompare "1.2.3.4-rc1" = some [1, 2, 3, 4, 1] ∧
    pyListLt [1, 2, 3, 4, 1] [1, 2, 3, 4, 2] = true ∧
    pyListLt [1, 2, 3, 4, 1] [1, 2, 3, 5, 1] = true := by
  refine ⟨?_, ?_, pyListLt_toKey i1 i2, pyListLt_exactlyOne _ _, by decide, by decide, by decide⟩
  · rw [VersionCompare, h1]; rfl
  · rw [VersionCompare, h2]; rfl

/-- Witness for C3 at the concrete pair (1.2.3.4-rc1, 1.2.3.4-rc2). -/
theorem c3_compare_strict_total_order_witness :
    lkgmCandidateInfo "1.2.3.4-rc1" = some ⟨1, 2, 3, 4, 1⟩ ∧
    VersionCompare "1.2.3.4-rc2" = some [1, 2, 3, 4, 2] :=
  ⟨by decide,
    (c3_compare_strict_total_order "1.2.3.4-rc1" "1.2.3.4-rc2" ⟨1, 2, 3, 4, 1⟩ ⟨1, 2, 3, 4, 2⟩
      (by decide) (by decide)).2.1⟩

/-! ## Lemmas: the stable sort and its maximum -/

/-- `pyListLe` unfolded. -/
theorem pyListLe_iff (a b : List Nat) : pyListLe a b = true ↔ pyListLt b a = false := by
  simp [pyListLe]

/-- `pyListLe` is reflexive. -/
theorem pyListLe_refl (a : List Nat) : pyListLe a a = true :=
  (pyListLe_iff a a).mpr (pyListLt_irrefl a)

/-- `pyListLe` is transitive. -/
theorem pyListLe_trans {a b c : List Nat} (h1 : pyListLe a b = true)
    (h2 : pyListLe b c = true) : pyListLe a c = true := by
  rw [pyListLe_iff] at h1 h2 ⊢
  apply Bool.eq_false_iff.mpr
  intro hca
  rcases pyListLt_trichotomy b c with g | g | g
  · have := pyListLt_trans b c a g hca
    rw [h1] at this; cases this
  · subst g; rw [hca] at h1; cases h1
  · rw [h2] at g; cases g

/-- Inserting never produces the empty list. -/
theorem insertPair_ne_nil (x : String × List Nat) (l : List (String × List Nat)) :
    insertPair x l ≠ [] := by
  cases l with
  | nil => simp [insertPair]
  | cons y ys =>
    simp only [insertPair]
    split <;> simp

/-- Membership in an insertion. -/
theorem mem_insertPair (z x : String × List Nat) :
    ∀ l, z ∈ insertPair x l ↔ z = x ∨ z ∈ l := by
  intro l
  induction l with
  | nil => simp [insertPair]
  | cons y ys ih =>
    simp only [insertPair]
    split
    · simp [List.mem_cons]
    · simp only [List.mem_cons, ih]
      tauto

/-- The sort permutes membership. -/
theorem mem_pySortPairs (z : String × List Nat) :
    ∀ l, z ∈ pySortPairs l ↔ z ∈ l := by
  intro l
  induction l with
  | nil => simp [pySortPairs]
  | cons x xs ih => simp [pySortPairs, mem_insertPair, ih]

/-- `getLast?` skips a head before a nonempty tail. -/
theorem getLast?_cons_of_ne (y : String × List Nat) (l : List (String × List Nat))
    (h : l ≠ []) : (y :: l).getLast? = l.getLast? := by
  cases l with
  | nil => exact absurd rfl h
  | cons a l' => exact List.getLast?_cons_cons

/-- Inserting into a list whose last element is a maximum: the new last
element is the larger of the inserted element and the old maximum. -/
theorem insertPair_getLast (x : String × List Nat) :
    ∀ (m : List (String × List Nat)) (p : String × List Nat),
      m.getLast? = some p → (∀ q ∈ m, pyListLe q.2 p.2 = true) →
      (insertPair x m).getLast? = some (if pyListLe x.2 p.2 then p else x) := by
  intro m
  induction m with
  | nil => intro p hp _; cases hp
  | cons y m ih =>
    intro p hp hmax
    cases m with
    | nil =>
      have hyp : y = p := by
        simpa using hp
      subst hyp
      simp only [insertPair]
      by_cases hle : pyListLe x.2 y.2 = true
      · rw [if_pos hle, if_pos hle]; rfl
      · rw [if_neg hle, if_neg hle]; rfl
    | cons z m' =>
      have hp' : (z :: m').getLast? = some p := by
        rw [List.getLast?_cons_cons] at hp; exact hp
      have hmax' : ∀ q ∈ z :: m', pyListLe q.2 p.2 = true := fun q hq =>
        hmax q (List.mem_cons_of_mem y hq)
      have hstep : insertPair x (y :: z :: m') =
          if pyListLe x.2 y.2 = true then x :: y :: z :: m'
          else y :: insertPair x (z :: m') := rfl
      rw [hstep]
      by_cases hxy : pyListLe x.2 y.2 = true
      · rw [if_pos hxy]
        have hyp : pyListLe y.2 p.2 = true := hmax y (List.mem_cons_self y (z :: m'))
        have hxp : pyListLe x.2 p.2 = true := pyListLe_trans hxy hyp
        rw [if_pos hxp]
        rw [List.getLast?_cons_cons, List.getLast?_cons_cons]
        exact hp'
      · rw [if_neg hxy]
        have hrec := ih p hp' hmax'
        rw [getLast?_cons_of_ne y _ (insertPair_ne_nil x (z :: m'))]
        exact hrec

/-- The last element of the sorted list is a member and a maximum under the
key order. -/
theorem pySortPairs_max : ∀ (l : List (String × List Nat)), l ≠ [] →
    ∃ p, (pySortPairs l).getLast? = some p ∧ p ∈ l ∧
      ∀ q ∈ l, pyListLe q.2 p.2 = true := by
  intro l
  induction l with
  | nil => intro h; exact absurd rfl h
  | cons x xs ih =>
    intro _
    rcases eq_or_ne xs [] with hnil | hne
    · subst hnil
      refine ⟨x, by simp [pySortPairs, insertPair], by simp, ?_⟩
      intro q hq
      simp only [List.mem_singleton] at hq
      subst hq
      exact pyListLe_refl _
    · obtain ⟨p, hp, hmem, hmax⟩ := ih hne
      have hmax' : ∀ q ∈ pySortPairs xs, pyListLe q.2 p.2 = true := fun q hq =>
        hmax q ((mem_pySortPairs q xs).mp hq)
      have hL := insertPair_getLast x (pySortPairs xs) p hp hmax'
      by_cases hxp : pyListLe x.2 p.2 = true
      · rw [if_pos hxp] at hL
        refine ⟨p, ?_, List.mem_cons_of_mem x hmem, ?_⟩
        · simpa [pySortPairs] using hL
        · intro q hq
          rcases List.mem_cons.mp hq with rfl | hq
          · exact hxp
          · exact hmax q hq
      · rw [if_neg hxp] at hL
        refine ⟨x, by simpa [pySortPairs] using hL, List.mem_cons_self x xs, ?_⟩
        intro q hq
        rcases List.mem_cons.mp hq with rfl | hq
        · exact pyListLe_refl _
        · have hpx : pyListLt p.2 x.2 = true := by
            have hfalse : pyListLe x.2 p.2 = false := Bool.eq_false_iff.mpr hxp
            simpa [pyListLe] using hfalse
          have hq' := hmax q hq
          rw [pyListLe_iff]
          apply Bool.eq_false_iff.mpr
          intro hxq
          have hpq := pyListLt_trans _ _ _ hpx hxq
          rw [(pyListLe_iff _ _).mp hq'] at hpq
          cases hpq

/-- `computeKeys` succeeds exactly with the key of every string, in order. -/
theorem computeKeys_spec : ∀ (l : List String) (pairs : List (String × List Nat)),
    computeKeys l = some pairs →
    pairs.map Prod.fst = l ∧ ∀ p ∈ pairs, VersionCompare p.1 = some p.2 := by
  intro l
  induction l with
  | nil =>
    intro pairs h
    simp only [computeKeys, Option.some.injEq] at h
    subst h
    simp
  | cons s rest ih =>
    intro pairs h
    simp only [computeKeys] at h
    cases hk : VersionCompare s with
    | none => rw [hk] at h; cases h
    | some k =>
      rw [hk] at h
      cases hr : computeKeys rest with
      | none => rw [hr] at h; cases h
      | some ps =>
        rw [hr] at h
        simp only [Option.some.injEq] at h
        subst h
        obtain ⟨hmap, hvc⟩ := ih ps hr
        constructor
        · simp [hmap]
        · intro p hp
          rcases List.mem_cons.mp hp with rfl | hp
          · exact hk
          · exact hvc p hp

/-! ## Claim C2 -/

/-- Claim C2 counterexample: with baseline 1.2.3.4 and the single stored
candidate `"1.2.3.45-rc1"` (whose 4-tuple (1,2,3,45) differs from the
baseline's (1,2,3,4)), the code still selects it, because the filter is a
string prefix test; the claim predicts the baseline default 1.2.3.4-rc1. -/
theorem c2_counterexample :
    lkgmCandidateInfo "1.2.3.45-rc1" = some ⟨1, 2, 3, 45, 1⟩ ∧
    _GetLatestCandidateByVersion ["1.2.3.45-rc1"] ⟨1, 2, 3, 4⟩ = some ⟨1, 2, 3, 45, 1⟩ ∧
    _GetLatestCandidateByVersion ["1.2.3.45-rc1"] ⟨1, 2, 3, 4⟩ ≠ some ⟨1, 2, 3, 4, 1⟩ := by
  refine ⟨by decide, by decide, by decide⟩

/-- Claim C2 (amended): candidate derivation selects exactly the stored
candidates whose version string starts with the baseline's 4-component
formatted string; if that set is empty the working candidate is the baseline
with revision defaulted to 1, and otherwise it is the reparse of a matched
string whose comparison key is maximal among all matched strings. -/
theorem c2_amended (all : List String) (v : BaseVersion) :
    (all.filter (fun s => pyStartsWith s (versionString4 v)) = [] →
      _GetLatestCandidateByVersion all v =
        some ⟨v.ver_maj, v.ver_min, v.ver_sp, v.ver_patch, 1⟩) ∧
    (∀ pairs, computeKeys (all.filter (fun s => pyStartsWith s (versionString4 v))) = some pairs →
      all.filter (fun s => pyStartsWith s (versionString4 v)) ≠ [] →
      ∃ p, p ∈ pairs ∧
        _GetLatestCandidateByVersion all v = lkgmCandidateInfo p.1 ∧
        p.1 ∈ all.filter (fun s => pyStartsWith s (versionString4 v)) ∧
        VersionCompare p.1 = some p.2 ∧
        ∀ q ∈ pairs, pyListLe q.2 p.2 = true) := by
  constructor
  · intro hf
    cases all with
    | nil =>
      unfold _GetLatestCandidateByVersion
      exact lkgm_parse_versionString4 v
    | cons a rest =>
      unfold _GetLatestCandidateByVersion
      rw [hf]
      exact lkgm_parse_versionString4 v
  · intro pairs hkeys hne
    cases all with
    | nil => simp at hne
    | cons a rest =>
      obtain ⟨m, ms, hfil⟩ : ∃ m ms,
          (a :: rest).filter (fun s => pyStartsWith s (versionString4 v)) = m :: ms := by
        cases hf : (a :: rest).filter (fun s => pyStartsWith s (versionString4 v)) with
        | nil => exact absurd hf hne
        | cons m ms => exact ⟨m, ms, rfl⟩
      rw [hfil] at hkeys
      obtain ⟨hmap, hvc⟩ := computeKeys_spec _ _ hkeys
      have hpne : pairs ≠ [] := by
        intro h
        rw [h] at hmap
        simp at hmap
      obtain ⟨p, hp, hmem, hmax⟩ := pySortPairs_max pairs hpne
      have h1 : _GetLatestCandidateByVersion (a :: rest) v =
          (match computeKeys (m :: ms) with
           | none => none
           | some ps =>
             match (pySortPairs ps).getLast? with
             | none => none
             | some q => lkgmCandidateInfo q.1) := by
        unfold _GetLatestCandidateByVersion
        rw [hfil]
      have h2 : _GetLatestCandidateByVersion (a :: rest) v =
          (match (pySortPairs pairs).getLast? with
           | none => none
           | some q => lkgmCandidateInfo q.1) := by
        rw [h1, hkeys]
      have h3 : _GetLatestCandidateByVersion (a :: rest) v = lkgmCandidateInfo p.1 := by
        rw [h2, hp]
      refine ⟨p, hmem, h3, ?_, hvc p hmem, hmax⟩
      rw [hfil, ← hmap]
      exact List.mem_map_of_mem Prod.fst hmem

/-- Witness for C2 (amended) at a baseline with no matching candidate. -/
theorem c2_amended_witness :
    (["9.9.9.9-rc1"].filter (fun s => pyStartsWith s (versionString4 ⟨1, 2, 3, 4⟩)) = []) ∧
    _GetLatestCandidateByVersion ["9.9.9.9-rc1"] ⟨1, 2, 3, 4⟩ = some ⟨1, 2, 3, 4, 1⟩ :=
  ⟨by decide, (c2_amended ["9.9.9.9-rc1"] ⟨1, 2, 3, 4⟩).1 (by decide)⟩

/-! ## Lemmas: inverting the matcher (claim C5) -/

/-- What a successful `matchComp` tells about its input. -/
theorem matchComp_inv {cs ds r : List Char} (h : matchComp cs = some (ds, r)) :
    cs = ds ++ '.' :: r ∧ ds ≠ [] ∧ ∀ c ∈ ds, c.isDigit = true := by
  simp only [matchComp] at h
  by_cases he : (cs.takeWhile Char.isDigit).isEmpty = true
  · rw [if_pos he] at h; cases h
  · rw [if_neg he] at h
    by_cases hd : (cs.dropWhile Char.isDigit).head? = some '.'
    · rw [if_pos hd] at h
      simp only [Option.some.injEq, Prod.mk.injEq] at h
      obtain ⟨hds, hr⟩ := h
      have hsplit := List.takeWhile_append_dropWhile (p := Char.isDigit) (l := cs)
      have hcons : cs.dropWhile Char.isDigit = '.' :: (cs.dropWhile Char.isDigit).tail := by
        cases hk : cs.dropWhile Char.isDigit with
        | nil => rw [hk] at hd; cases hd
        | cons x t =>
          rw [hk] at hd
          simp only [List.head?_cons, Option.some.injEq] at hd
          subst hd
          rfl
      refine ⟨?_, ?_, ?_⟩
      · conv_lhs => rw [← hsplit]
        rw [hcons, hr, hds]
      · intro h0
        apply he
        rw [hds, h0]
        rfl
      · intro c hc
        rw [← hds] at hc
        exact List.mem_takeWhile_imp hc
    · rw [if_neg hd] at h; cases h

/-- What a successful `matchRc` tells about its input. -/
theorem matchRc_inv {cs : List Char} {n : Nat} (h : matchRc cs = some n) :
    cs = '-' :: 'r' :: 'c' :: cs.drop 3 ∧ (cs.drop 3).takeWhile Char.isDigit ≠ [] := by
  simp only [matchRc] at h
  by_cases ht : cs.take 3 = ['-', 'r', 'c']
  · rw [if_pos ht] at h
    by_cases he : ((cs.drop 3).takeWhile Char.isDigit).isEmpty = true
    · rw [if_pos he] at h; cases h
    · refine ⟨?_, ?_⟩
      · conv_lhs => rw [← List.take_append_drop 3 cs]
        rw [ht]
        rfl
      · intro h0
        apply he
        rw [h0]
        rfl
  · rw [if_neg ht] at h; cases h

/-- `specRcTail` accepts the empty tail. -/
theorem specRcTail_nil : specRcTail [] = true := rfl

/-- `specRcTail` accepts `-rc` followed by a nonempty pure digit run. -/
theorem specRcTail_rc (d5 : List Char) (h0 : d5 ≠ []) (hd : ∀ c ∈ d5, c.isDigit = true) :
    specRcTail ('-' :: 'r' :: 'c' :: d5) = true := by
  have hall := takeWhile_all Char.isDigit d5 hd
  simp only [specRcTail]
  rw [if_neg (by simp)]
  rw [if_pos (show ('-' :: 'r' :: 'c' :: d5).take 3 = ['-', 'r', 'c'] from rfl)]
  show (if (d5.takeWhile Char.isDigit).isEmpty = true then false
        else (d5.dropWhile Char.isDigit).isEmpty) = true
  rw [hall.1, hall.2, isEmpty_false_of_ne_nil h0]
  simp

/-- Building a full pattern match from its pieces. -/
theorem specFullMatch_build (d1 d2 d3 d4 tail : List Char)
    (h1 : d1 ≠ []) (h1d : ∀ c ∈ d1, c.isDigit = true)
    (h2 : d2 ≠ []) (h2d : ∀ c ∈ d2, c.isDigit = true)
    (h3 : d3 ≠ []) (h3d : ∀ c ∈ d3, c.isDigit = true)
    (h4 : d4 ≠ []) (h4d : ∀ c ∈ d4, c.isDigit = true)
    (htail : specRcTail tail = true)
    (htailstop : ∀ c cs, tail = c :: cs → c.isDigit = false) :
    specFullMatch (d1 ++ '.' :: (d2 ++ '.' :: (d3 ++ '.' :: (d4 ++ tail)))) = true := by
  have h4' := takeWhile_append_stop Char.isDigit d4 tail h4d htailstop
  simp only [specFullMatch, matchComp_run d1 _ h1 h1d, matchComp_run d2 _ h2 h2d,
    matchComp_run d3 _ h3 h3d, Option.some_bind, Option.map_some', h4'.1, h4'.2,
    isEmpty_false_of_ne_nil h4, htail]
  simp

/-- A decomposition into a fully matching prefix and a leftover witnesses
`prefixMatchExists`. -/
theorem prefixMatchExists_of_decomp (cs P L : List Char) (hcs : cs = P ++ L)
    (hP : specFullMatch P = true) : prefixMatchExists cs = true := by
  subst hcs
  simp only [prefixMatchExists, List.any_eq_true, List.mem_range]
  exact ⟨P.length, by rw [List.length_append]; omega, by rw [List.take_left]; exact hP⟩

/-- If the pattern matches at the start of the list (with trailing garbage
allowed), then some prefix of the list fully matches the pattern. -/
theorem matchAt_some_prefix {cs : List Char} {g : (Nat × Nat × Nat × Nat) × Option Nat}
    (h : matchAt cs = some g) : prefixMatchExists cs = true := by
  unfold matchAt at h
  cases hm1 : matchComp cs with
  | none => rw [hm1] at h; simp at h
  | some p1 =>
    obtain ⟨d1, r1⟩ := p1
    rw [hm1, Option.some_bind] at h
    cases hm2 : matchComp r1 with
    | none => rw [hm2] at h; simp at h
    | some p2 =>
      obtain ⟨d2, r2⟩ := p2
      rw [hm2, Option.some_bind] at h
      cases hm3 : matchComp r2 with
      | none => rw [hm3] at h; simp at h
      | some p3 =>
        obtain ⟨d3, r3⟩ := p3
        rw [hm3, Option.some_bind] at h
        by_cases he : (r3.takeWhile Char.isDigit).isEmpty = true
        · rw [if_pos he] at h; cases h
        · obtain ⟨hcs1, hd1ne, hd1⟩ := matchComp_inv hm1
          obtain ⟨hr1, hd2ne, hd2⟩ := matchComp_inv hm2
          obtain ⟨hr2, hd3ne, hd3⟩ := matchComp_inv hm3
          have hd4ne : r3.takeWhile Char.isDigit ≠ [] := fun h0 => he (by rw [h0]; rfl)
          have hd4 : ∀ c ∈ r3.takeWhile Char.isDigit, c.isDigit = true := fun c hc =>
            List.mem_takeWhile_imp hc
          have hr3 : r3 = r3.takeWhile Char.isDigit ++ r3.dropWhile Char.isDigit :=
            (List.takeWhile_append_dropWhile (p := Char.isDigit) (l := r3)).symm
          cases hm4 : matchRc (r3.dropWhile Char.isDigit) with
          | none =>
            apply prefixMatchExists_of_decomp cs
              (d1 ++ '.' :: (d2 ++ '.' :: (d3 ++ '.' :: (r3.takeWhile Char.isDigit ++ []))))
              (r3.dropWhile Char.isDigit)
            · rw [hcs1, hr1, hr2]
              conv_lhs => rw [hr3]
              simp [List.append_assoc]
            · exact specFullMatch_build _ _ _ _ _ hd1ne hd1 hd2ne hd2 hd3ne hd3 hd4ne hd4
                specRcTail_nil (by intro c cs h0; cases h0)
          | some n =>
            obtain ⟨hshape, hd5ne⟩ := matchRc_inv hm4
            have hd5 : ∀ c ∈ ((r3.dropWhile Char.isDigit).drop 3).takeWhile Char.isDigit,
                c.isDigit = true := fun c hc => List.mem_takeWhile_imp hc
            have hdrop : (r3.dropWhile Char.isDigit).drop 3 =
                ((r3.dropWhile Char.isDigit).drop 3).takeWhile Char.isDigit ++
                  ((r3.dropWhile Char.isDigit).drop 3).dropWhile Char.isDigit :=
              (List.takeWhile_append_dropWhile (p := Char.isDigit)
                (l := (r3.dropWhile Char.isDigit).drop 3)).symm
            apply prefixMatchExists_of_decomp cs
              (d1 ++ '.' :: (d2 ++ '.' :: (d3 ++ '.' :: (r3.takeWhile Char.isDigit ++
                ('-' :: 'r' :: 'c' ::
                  ((r3.dropWhile Char.isDigit).drop 3).takeWhile Char.isDigit)))))
              (((r3.dropWhile Char.isDigit).drop 3).dropWhile Char.isDigit)
            · rw [hcs1, hr1, hr2]
              conv_lhs => rw [hr3]
              conv_lhs => rw [hshape]
              conv_lhs => rw [hdrop]
              simp [List.append_assoc]
            · exact specFullMatch_build _ _ _ _ _ hd1ne hd1 hd2ne hd2 hd3ne hd3 hd4ne hd4
                (specRcTail_rc _ hd5ne hd5) (by intro c cs h0; cases h0; decide)

/-- A string with no matching substring makes the whole search fail. -/
theorem regexSearch_none (cs : List Char) (h : hasMatchAnywhere cs = false) :
    regexSearch cs = none := by
  induction cs with
  | nil => rfl
  | cons c rest ih =>
    simp only [hasMatchAnywhere, Bool.or_eq_false_iff] at h
    obtain ⟨h1, h2⟩ := h
    cases hm : matchAt (c :: rest) with
    | some g =>
      have hp := matchAt_some_prefix hm
      rw [h1] at hp
      cases hp
    | none =>
      simp [regexSearch, hm, ih h2]

/-! ## Claim C5 -/

/-- Claim C5 counterexample: the string `"v1.2.3.4"` does not match the
pattern `\d+\.\d+\.\d+\.\d+(-rc\d+)?` (as a match of the input string), yet
the constructor accepts it, because `re.search` finds the matching substring
`"1.2.3.4"`; so "fails on every non-matching input" is false as stated. -/
theorem c5_counterexample :
    specFullMatch "v1.2.3.4".data = false ∧
    lkgmCandidateInfo "v1.2.3.4" = some ⟨1, 2, 3, 4, 1⟩ := by
  exact ⟨by decide, by decide⟩

/-- Claim C5 (amended): for every input string no contiguous substring of
which matches the pattern, construction fails with the assert (the
`AssertionError` the spec's taxonomy calls `MalformedVersionError`), modelled
as `none`; the failure is not caught by any retry loop. -/
theorem c5_no_submatch_parse_fails (s : String) (h : hasMatchAnywhere s.data = false) :
    lkgmCandidateInfo s = none := by
  unfold lkgmCandidateInfo
  rw [regexSearch_none s.data h]

/-- Witness for C5 (amended) on the concrete input `"hello"`. -/
theorem c5_no_submatch_parse_fails_witness :
    hasMatchAnywhere "hello".data = false ∧ lkgmCandidateInfo "hello" = none :=
  ⟨by decide, c5_no_submatch_parse_fails "hello" (by decide)⟩

/-! ## Lemmas: the polling loop -/

/-- Processing one builder never touches another builder's entry. -/
theorem stepBuilder_other (mk : String → Markers) (s : PollState) (b x : String)
    (h : b ≠ x) : (stepBuilder mk s x).statuses b = s.statuses b := by
  unfold stepBuilder
  by_cases hg : isTerminalEntry (s.statuses x) = true
  · rw [if_pos hg]
  · rw [if_neg hg]
    show (if b = x then some (checkMarkers (mk x)) else s.statuses b) = s.statuses b
    rw [if_neg h]

/-- A terminal entry survives the processing of any builder. -/
theorem stepBuilder_preserves (mk : String → Markers) (s : PollState) (b x : String)
    (h : isTerminalEntry (s.statuses b) = true) :
    (stepBuilder mk s x).statuses b = s.statuses b := by
  by_cases hbx : b = x
  · subst hbx
    unfold stepBuilder
    rw [if_pos h]
  · exact stepBuilder_other mk s b x hbx

/-- A terminal entry survives a whole pass over the builder list. -/
theorem foldl_step_preserves (mk : String → Markers) (b : String) :
    ∀ (l : List String) (s : PollState), isTerminalEntry (s.statuses b) = true →
      (l.foldl (stepBuilder mk) s).statuses b = s.statuses b := by
  intro l
  induction l with
  | nil => intro s _; rfl
  | cons x xs ih =>
    intro s h
    rw [List.foldl_cons]
    have h1 := stepBuilder_preserves mk s b x h
    have h2 : isTerminalEntry ((stepBuilder mk s x).statuses b) = true := by
      rw [h1]; exact h
    rw [ih (stepBuilder mk s x) h2, h1]

/-- A terminal entry survives the rest of the polling loop, whatever markers
appear in later iterations. -/
theorem pollAux_preserves (mk : Nat → String → Markers) (clock : Nat → Nat)
    (builders : List String) (b : String) :
    ∀ (fuel t : Nat) (s : PollState), isTerminalEntry (s.statuses b) = true →
      (pollAux mk clock builders fuel t s).1.statuses b = s.statuses b := by
  intro fuel
  induction fuel with
  | zero => intro t s _; rfl
  | succ fuel ih =>
    intro t s h
    simp only [pollAux]
    by_cases hc : clock t < MAX_TIMEOUT_SECONDS
    · rw [if_pos hc]
      have hpre : (runIteration (mk t) builders s).statuses b = s.statuses b :=
        foldl_step_preserves (mk t) b builders s h
      have hterm : isTerminalEntry ((runIteration (mk t) builders s).statuses b) = true := by
        rw [hpre]; exact h
      by_cases hn : (runIteration (mk t) builders s).num_complete < builders.length
      · rw [if_pos hn, ih (t + 1) _ hterm, hpre]
      · rw [if_neg hn]
        exact hpre
    · rw [if_neg hc]

/-- The status check yields one of the four dictionary values. -/
theorem checkMarkers_ok (m : Markers) :
    checkMarkers m = none ∨ checkMarkers m = some "pass" ∨ checkMarkers m = some "fail" ∨
      checkMarkers m = some "inflight" := by
  obtain ⟨p, f, i⟩ := m
  cases p <;> cases f <;> cases i <;> simp [checkMarkers]

/-- A `pass` marker wins over everything, stale `inflight` markers included. -/
theorem checkMarkers_pass (m : Markers) (h : m.passExists = true) :
    checkMarkers m = some "pass" := by
  unfold checkMarkers
  rw [if_pos h]

/-- A `fail` marker wins over an `inflight` marker. -/
theorem checkMarkers_fail (m : Markers) (hp : m.passExists = false)
    (h : m.failExists = true) : checkMarkers m = some "fail" := by
  unfold checkMarkers
  rw [hp]
  simp only [Bool.false_eq_true, if_false]
  rw [if_pos h]

/-- Terminality of a present dictionary entry. -/
theorem isTerminalEntry_some (st : Option String) :
    isTerminalEntry (some st) = (st == some "pass" || st == some "fail") := by
  cases st with
  | none => rfl
  | some s => rfl

/-- One builder step keeps every entry in the four-value range. -/
theorem stepBuilder_entryOk (mk : String → Markers) (s : PollState) (b x : String)
    (h : entryOk (s.statuses b)) : entryOk ((stepBuilder mk s x).statuses b) := by
  unfold stepBuilder
  by_cases hg : isTerminalEntry (s.statuses x) = true
  · rw [if_pos hg]; exact h
  · rw [if_neg hg]
    show entryOk (if b = x then some (checkMarkers (mk x)) else s.statuses b)
    by_cases hbx : b = x
    · rw [if_pos hbx]
      rcases checkMarkers_ok (mk x) with hk | hk | hk | hk <;> rw [hk] <;> simp [entryOk]
    · rw [if_neg hbx]; exact h

/-- A whole pass keeps every entry in the four-value range. -/
theorem foldl_step_entryOk (mk : String → Markers) (b : String) :
    ∀ (l : List String) (s : PollState), entryOk (s.statuses b) →
      entryOk ((l.foldl (stepBuilder mk) s).statuses b) := by
  intro l
  induction l with
  | nil => intro s h; exact h
  | cons x xs ih =>
    intro s h
    rw [List.foldl_cons]
    exact ih (stepBuilder mk s x) (stepBuilder_entryOk mk s b x h)

/-- The loop keeps every entry in the four-value range. -/
theorem pollAux_entryOk (mk : Nat → String → Markers) (clock : Nat → Nat)
    (builders : List String) (b : String) :
    ∀ (fuel t : Nat) (s : PollState), entryOk (s.statuses b) →
      entryOk ((pollAux mk clock builders fuel t s).1.statuses b) := by
  intro fuel
  induction fuel with
  | zero => intro t s h; exact h
  | succ fuel ih =>
    intro t s h
    simp only [pollAux]
    by_cases hc : clock t < MAX_TIMEOUT_SECONDS
    · rw [if_pos hc]
      have h' : entryOk ((runIteration (mk t) builders s).statuses b) :=
        foldl_step_entryOk (mk t) b builders s h
      by_cases hn : (runIteration (mk t) builders s).num_complete < builders.length
      · rw [if_pos hn]
        exact ih (t + 1) _ h'
      · rw [if_neg hn]
        exact h'
    · rw [if_neg hc]
      exact h

/-- A pass over a list containing the builder, while its pass marker exists,
ends with its entry equal to `pass` (starting from a non-terminal entry or an
entry already equal to `pass`). -/
theorem foldl_step_pass (mk : String → Markers) (b : String)
    (hpass : (mk b).passExists = true) :
    ∀ (l : List String) (s : PollState), b ∈ l →
      (isTerminalEntry (s.statuses b) = false ∨ s.statuses b = some (some "pass")) →
      (l.foldl (stepBuilder mk) s).statuses b = some (some "pass") := by
  intro l
  induction l with
  | nil => intro s hb _; cases hb
  | cons x xs ih =>
    intro s hb hs
    rw [List.foldl_cons]
    by_cases hbx : b = x
    · subst hbx
      rcases hs with hs | hs
      · have hstep : (stepBuilder mk s b).statuses b = some (some "pass") := by
          unfold stepBuilder
          rw [if_neg (by rw [hs]; exact Bool.false_ne_true)]
          show (if b = b then some (checkMarkers (mk b)) else s.statuses b) = _
          rw [if_pos rfl, checkMarkers_pass _ hpass]
        have hterm : isTerminalEntry ((stepBuilder mk s b).statuses b) = true := by
          rw [hstep]; rfl
        rw [foldl_step_preserves mk b xs _ hterm, hstep]
      · have hterm : isTerminalEntry (s.statuses b) = true := by rw [hs]; rfl
        have hstep : (stepBuilder mk s b).statuses b = s.statuses b :=
          stepBuilder_preserves mk s b b hterm
        have hterm2 : isTerminalEntry ((stepBuilder mk s b).statuses b) = true := by
          rw [hstep]; exact hterm
        rw [foldl_step_preserves mk b xs _ hterm2, hstep, hs]
    · have hb' : b ∈ xs := by
        rcases List.mem_cons.mp hb with h | h
        · exact absurd h hbx
        · exact h
      have hoth := stepBuilder_other mk s b x hbx
      apply ih (stepBuilder mk s x) hb'
      rw [hoth]
      exact hs

/-- Flipping one list element's predicate value from false to true adds
exactly one to the filter length, on a duplicate-free list. -/
theorem filter_length_succ :
    ∀ (l : List String), l.Nodup → ∀ b ∈ l, ∀ (p q : String → Bool),
      (∀ x, x ≠ b → q x = p x) → p b = false → q b = true →
      (l.filter q).length = (l.filter p).length + 1 := by
  intro l
  induction l with
  | nil =>
    intro _ b hb
    cases hb
  | cons x xs ih =>
    intro hnd b hb p q hx hp hq
    rcases List.mem_cons.mp hb with rfl | hb'
    · have hbxs : b ∉ xs := (List.nodup_cons.mp hnd).1
      rw [List.filter_cons, List.filter_cons, hq, hp]
      simp only [if_true, Bool.false_eq_true, if_false, List.length_cons]
      have hcong : xs.filter q = xs.filter p :=
        List.filter_congr fun y hy => hx y (fun hyb => hbxs (hyb ▸ hy))
      rw [hcong]
    · have hxb : x ≠ b := fun h => (List.nodup_cons.mp hnd).1 (h ▸ hb')
      rw [List.filter_cons, List.filter_cons, hx x hxb]
      by_cases hpx : p x = true
      · rw [if_pos hpx, if_pos hpx]
        simp only [List.length_cons]
        rw [ih (List.nodup_cons.mp hnd).2 b hb' p q hx hp hq]
      · rw [if_neg hpx, if_neg hpx]
        exact ih (List.nodup_cons.mp hnd).2 b hb' p q hx hp hq

/-- A list with a duplicate strictly shrinks under `dedup`. -/
theorem dedup_length_lt (l : List String) (h : ¬ l.Nodup) : l.dedup.length < l.length := by
  have hle : l.dedup.length ≤ l.length := (List.dedup_sublist l).length_le
  rcases lt_or_eq_of_le hle with hlt | heq
  · exact hlt
  · exfalso
    apply h
    rw [← (List.dedup_sublist l).eq_of_length heq]
    exact List.nodup_dedup l

/-- `num_complete` counts exactly the distinct builders with a terminal
entry: one builder step preserves the accounting. -/
theorem stepBuilder_inv (mk : String → Markers) (builders : List String) (s : PollState)
    (b : String) (hb : b ∈ builders)
    (hInv : s.num_complete =
      (builders.dedup.filter fun x => isTerminalEntry (s.statuses x)).length) :
    (stepBuilder mk s b).num_complete =
      (builders.dedup.filter fun x => isTerminalEntry ((stepBuilder mk s b).statuses x)).length := by
  unfold stepBuilder
  by_cases hg : isTerminalEntry (s.statuses b) = true
  · rw [if_pos hg]; exact hInv
  · rw [if_neg hg]
    show (if checkMarkers (mk b) == some "pass" || checkMarkers (mk b) == some "fail"
            then s.num_complete + 1 else s.num_complete) =
      (builders.dedup.filter fun x =>
        isTerminalEntry (if x = b then some (checkMarkers (mk b)) else s.statuses x)).length
    by_cases hterm :
        (checkMarkers (mk b) == some "pass" || checkMarkers (mk b) == some "fail") = true
    · rw [if_pos hterm, hInv]
      refine (filter_length_succ builders.dedup (List.nodup_dedup builders) b
        (List.mem_dedup.mpr hb) _ _ ?_ ?_ ?_).symm
      · intro x hxb
        rw [if_neg hxb]
      · exact Bool.eq_false_iff.mpr hg
      · rw [if_pos rfl, isTerminalEntry_some]
        exact hterm
    · rw [if_neg hterm, hInv]
      apply congrArg List.length
      apply List.filter_congr
      intro x _
      by_cases hxb : x = b
      · subst hxb
        rw [if_pos rfl, isTerminalEntry_some]
        rw [Bool.eq_false_iff.mpr hg, Bool.eq_false_iff.mpr hterm]
      · rw [if_neg hxb]

/-- The accounting invariant survives a whole pass. -/
theorem foldl_step_inv (mk : String → Markers) (builders : List String) :
    ∀ (l : List String), (∀ x ∈ l, x ∈ builders) → ∀ (s : PollState),
      s.num_complete =
        (builders.dedup.filter fun x => isTerminalEntry (s.statuses x)).length →
      (l.foldl (stepBuilder mk) s).num_complete =
        (builders.dedup.filter fun x =>
          isTerminalEntry ((l.foldl (stepBuilder mk) s).statuses x)).length := by
  intro l
  induction l with
  | nil => intro _ s h; exact h
  | cons x xs ih =>
    intro hmem s h
    rw [List.foldl_cons]
    exact ih (fun y hy => hmem y (List.mem_cons_of_mem x hy)) (stepBuilder mk s x)
      (stepBuilder_inv mk builders s x (hmem x (List.mem_cons_self x xs)) h)

/-- With a duplicated builder name the early break is unreachable: the
completion counter stays below the list length, so the loop only exits
through the time guard. -/
theorem pollAux_dup (mk : Nat → String → Markers) (clock : Nat → Nat)
    (builders : List String) (hdup : ¬ builders.Nodup) :
    ∀ (fuel t : Nat) (s : PollState),
      s.num_complete =
        (builders.dedup.filter fun x => isTerminalEntry (s.statuses x)).length →
      (pollAux mk clock builders fuel t s).2 = false ∧
      (pollAux mk clock builders fuel t s).1.num_complete < builders.length := by
  have hdl : builders.dedup.length < builders.length := dedup_length_lt builders hdup
  have hbound : ∀ s : PollState,
      s.num_complete =
        (builders.dedup.filter fun x => isTerminalEntry (s.statuses x)).length →
      s.num_complete < builders.length := by
    intro s h
    rw [h]
    calc (builders.dedup.filter fun x => isTerminalEntry (s.statuses x)).length
        ≤ builders.dedup.length := List.length_filter_le _ _
      _ < builders.length := hdl
  intro fuel
  induction fuel with
  | zero =>
    intro t s hInv
    exact ⟨rfl, hbound s hInv⟩
  | succ fuel ih =>
    intro t s hInv
    simp only [pollAux]
    by_cases hc : clock t < MAX_TIMEOUT_SECONDS
    · rw [if_pos hc]
      have hInv' : (runIteration (mk t) builders s).num_complete =
          (builders.dedup.filter fun x =>
            isTerminalEntry ((runIteration (mk t) builders s).statuses x)).length :=
        foldl_step_inv (mk t) builders builders (fun x hx => hx) s hInv
      have hlt := hbound _ hInv'
      rw [if_pos hlt]
      exact ih (t + 1) _ hInv'
    · rw [if_neg hc]
      exact ⟨rfl, hbound s hInv⟩

/-- The accounting invariant holds at the start. -/
theorem initial_inv (builders : List String) :
    initialPollState.num_complete =
      (builders.dedup.filter fun x => isTerminalEntry (initialPollState.statuses x)).length := by
  have h : (builders.dedup.filter fun x => isTerminalEntry (initialPollState.statuses x)) = [] := by
    apply List.filter_eq_nil_iff.mpr
    intro a _
    simp [initialPollState, isTerminalEntry]
  rw [h]
  rfl

/-- Running the loop from iteration `k` for `n` more guard checks, with the
guard passing and the break not taken until the clock trips at `k + n`. -/
theorem pollAux_runs_to_timeout (mk : Nat → String → Markers) (clock : Nat → Nat)
    (builders : List String) :
    ∀ (n fuel k : Nat), MAX_TIMEOUT_SECONDS ≤ clock (k + n) →
      (∀ t, k ≤ t → t < k + n → clock t < MAX_TIMEOUT_SECONDS) →
      (∀ t, k ≤ t → t < k + n →
        (iterStates mk builders (t + 1)).num_complete < builders.length) →
      n < fuel →
      pollAux mk clock builders fuel k (iterStates mk builders k) =
        (iterStates mk builders (k + n), false) := by
  intro n
  induction n with
  | zero =>
    intro fuel k hT _ _ hfuel
    rw [Nat.add_zero] at hT ⊢
    cases fuel with
    | zero => omega
    | succ f =>
      simp only [pollAux]
      rw [if_neg (by omega)]
  | succ n ih =>
    intro fuel k hT hlt hnc hfuel
    cases fuel with
    | zero => omega
    | succ f =>
      simp only [pollAux]
      rw [if_pos (hlt k (Nat.le_refl k) (by omega))]
      have hs' : runIteration (mk k) builders (iterStates mk builders k) =
          iterStates mk builders (k + 1) := rfl
      rw [hs']
      rw [if_pos (hnc k (Nat.le_refl k) (by omega))]
      have hsh : k + 1 + n = k + (n + 1) := by omega
      have hT' : MAX_TIMEOUT_SECONDS ≤ clock (k + 1 + n) := by rw [hsh]; exact hT
      have hlt' : ∀ t, k + 1 ≤ t → t < k + 1 + n → clock t < MAX_TIMEOUT_SECONDS := by
        intro t h1 h2
        exact hlt t (by omega) (by omega)
      have hnc' : ∀ t, k + 1 ≤ t → t < k + 1 + n →
          (iterStates mk builders (t + 1)).num_complete < builders.length := by
        intro t h1 h2
        exact hnc t (by omega) (by omega)
      have := ih f (k + 1) hT' hlt' hnc' (by omega)
      rw [this, hsh]

/-! ## Claims C6, C8, C10 -/

/-- Claim C6: every entry of the returned status map is unset, inflight,
pass or fail; once an entry is terminal no later loop iteration changes it;
a terminal builder is skipped outright (its markers are not consulted); a
`pass` marker takes priority over a stale `inflight` marker, so a builder
whose pass marker persists reports `pass` in any poll call that runs at
least one iteration. -/
theorem c6_status_monotonic :
    (∀ (mk : Nat → String → Markers) (clock : Nat → Nat) (builders : List String)
        (fuel : Nat) (b : String),
        entryOk ((GetBuildersStatus mk clock builders fuel).1.statuses b)) ∧
    (∀ (mk : Nat → String → Markers) (clock : Nat → Nat) (builders : List String)
        (fuel t : Nat) (s : PollState) (b : String),
        isTerminalEntry (s.statuses b) = true →
        (pollAux mk clock builders fuel t s).1.statuses b = s.statuses b) ∧
    (∀ (mk : String → Markers) (s : PollState) (b : String),
        isTerminalEntry (s.statuses b) = true → stepBuilder mk s b = s) ∧
    (∀ m : Markers, m.passExists = true → checkMarkers m = some "pass") ∧
    (∀ (mk : Nat → String → Markers) (clock : Nat → Nat) (builders : List String)
        (fuel : Nat) (b : String), b ∈ builders → (∀ t, (mk t b).passExists = true) →
        clock 0 < MAX_TIMEOUT_SECONDS → 1 ≤ fuel →
        (GetBuildersStatus mk clock builders fuel).1.statuses b = some (some "pass")) := by
  refine ⟨?_, ?_, ?_, ?_, ?_⟩
  · intro mk clock builders fuel b
    exact pollAux_entryOk mk clock builders b fuel 0 initialPollState (Or.inl rfl)
  · intro mk clock builders fuel t s b h
    exact pollAux_preserves mk clock builders b fuel t s h
  · intro mk s b h
    unfold stepBuilder
    rw [if_pos h]
  · exact checkMarkers_pass
  · intro mk clock builders fuel b hb hm hclock hfuel
    cases fuel with
    | zero => omega
    | succ f =>
      unfold GetBuildersStatus
      simp only [pollAux]
      rw [if_pos hclock]
      have hset : (runIteration (mk 0) builders initialPollState).statuses b =
          some (some "pass") :=
        foldl_step_pass (mk 0) b (hm 0) builders initialPollState hb (Or.inl rfl)
      have hterm : isTerminalEntry
          ((runIteration (mk 0) builders initialPollState).statuses b) = true := by
        rw [hset]; rfl
      by_cases hn : (runIteration (mk 0) builders initialPollState).num_complete <
          builders.length
      · rw [if_pos hn, pollAux_preserves mk clock builders b f 1 _ hterm, hset]
      · rw [if_neg hn]
        exact hset

/-- Witness for C6: with a stale inflight marker reappearing at every
iteration, an entry already `pass` is left untouched by the rest of the
loop. -/
theorem c6_status_monotonic_witness :
    isTerminalEntry ((⟨fun x => if x = "a" then some (some "pass") else none, 1⟩ :
        PollState).statuses "a") = true ∧
    (pollAux (fun _ _ => ⟨false, false, true⟩) (fun _ => 0) ["a"] 3 0
        ⟨fun x => if x = "a" then some (some "pass") else none, 1⟩).1.statuses "a" =
      (⟨fun x => if x = "a" then some (some "pass") else none, 1⟩ :
        PollState).statuses "a" :=
  ⟨by decide, c6_status_monotonic.2.1 (fun _ _ => ⟨false, false, true⟩) (fun _ => 0)
    ["a"] 3 0 ⟨fun x => if x = "a" then some (some "pass") else none, 1⟩ "a" (by decide)⟩

/-- Claim C8: when the wall clock reaches the timeout after `T` iterations
in which the all-terminal break was never taken, the call returns the map
accumulated in those `T` iterations, exiting through the time guard (exit
flag `false`), with no exception — the return type is total. -/
theorem c8_timeout_not_failure (mk : Nat → String → Markers) (clock : Nat → Nat)
    (builders : List String) (fuel T : Nat)
    (h1 : ∀ t, t < T → clock t < MAX_TIMEOUT_SECONDS)
    (h2 : ∀ t, t < T → (iterStates mk builders (t + 1)).num_complete < builders.length)
    (h3 : MAX_TIMEOUT_SECONDS ≤ clock T)
    (h4 : T < fuel) :
    GetBuildersStatus mk clock builders fuel = (iterStates mk builders T, false) := by
  have h := pollAux_runs_to_timeout mk clock builders T fuel 0
    (by rw [Nat.zero_add]; exact h3)
    (fun t _ ht => h1 t (by omega))
    (fun t _ ht => h2 t (by omega))
    h4
  rw [Nat.zero_add] at h
  exact h

/-- Witness for C8: one never-reporting builder, clock reaching the timeout
at the third guard check. -/
theorem c8_timeout_not_failure_witness :
    MAX_TIMEOUT_SECONDS ≤ 150 * 2 ∧
    GetBuildersStatus (fun _ _ => ⟨false, false, false⟩) (fun t => 150 * t) ["a"] 5 =
      (iterStates (fun _ _ => ⟨false, false, false⟩) ["a"] 2, false) :=
  ⟨by decide,
    c8_timeout_not_failure (fun _ _ => ⟨false, false, false⟩) (fun t => 150 * t)
      ["a"] 5 2 (by decide) (by decide) (by decide) (by decide)⟩

/-- Claim C10: with a duplicated builder name the completion counter can
never reach the list's length, so the all-terminal early break is never
taken — whatever markers exist — and the loop runs until the wall-clock
guard stops it. -/
theorem c10_duplicate_never_breaks (mk : Nat → String → Markers) (clock : Nat → Nat)
    (builders : List String) (fuel : Nat) (hdup : ¬ builders.Nodup) :
    (GetBuildersStatus mk clock builders fuel).2 = false ∧
    (GetBuildersStatus mk clock builders fuel).1.num_complete < builders.length :=
  pollAux_dup mk clock builders hdup fuel 0 initialPollState (initial_inv builders)

/-- Witness for C10: duplicated name `"a"`, every builder with a pass marker
from the first iteration on — still no early break. -/
theorem c10_duplicate_never_breaks_witness :
    ¬ (["a", "a"] : List String).Nodup ∧
    (GetBuildersStatus (fun _ _ => ⟨true, false, false⟩) (fun t => 300 * t)
      ["a", "a"] 4).2 = false :=
  ⟨by decide,
    (c10_duplicate_never_breaks (fun _ _ => ⟨true, false, false⟩) (fun t => 300 * t)
      ["a", "a"] 4 (by decide)).1⟩

/-! ## Lemmas: the promotion retry loop -/

/-- When every attempt in range fails, the loop exhausts the range and
raises with the wrapped message of the last attempt. -/
theorem promoteLoop_all_fail (attempt : Nat → Option String) :
    ∀ (fuel index : Nat) (last : String) (e : String), 0 < fuel →
      (∀ j, index ≤ j → j < index + fuel → attempt j ≠ none) →
      attempt (index + fuel - 1) = some e →
      promoteLoop attempt index last fuel =
        PromoteResult.exn (promoteErrorMessage e) (index + fuel) := by
  intro fuel
  induction fuel with
  | zero => intro index last e h; omega
  | succ f ih =>
    intro index last e _ hall hlast
    simp only [promoteLoop]
    cases ha : attempt index with
    | none => exact absurd ha (hall index (Nat.le_refl index) (by omega))
    | some e' =>
      cases f with
      | zero =>
        have h0 : attempt index = some e := by
          rw [Nat.add_sub_cancel] at hlast
          exact hlast
        rw [ha] at h0
        have he : e' = e := Option.some.inj h0
        subst he
        rfl
      | succ g =>
        have hall' : ∀ j, index + 1 ≤ j → j < (index + 1) + (g + 1) → attempt j ≠ none :=
          fun j h1 h2 => hall j (by omega) (by omega)
        have hlast' : attempt ((index + 1) + (g + 1) - 1) = some e := by
          rw [show (index + 1) + (g + 1) - 1 = index + (g + 1 + 1) - 1 from by omega]
          exact hlast
        have hrec := ih (index + 1) (promoteErrorMessage e') e (by omega) hall' hlast'
        rw [show index + (g + 1 + 1) = (index + 1) + (g + 1) from by omega]
        exact hrec

/-- The first successful attempt terminates the loop at once. -/
theorem promoteLoop_success (attempt : Nat → Option String) :
    ∀ (fuel index : Nat) (last : String) (i : Nat), index ≤ i → i < index + fuel →
      attempt i = none → (∀ j, index ≤ j → j < i → attempt j ≠ none) →
      promoteLoop attempt index last fuel = PromoteResult.ok (i + 1) := by
  intro fuel
  induction fuel with
  | zero => intro index last i h1 h2; omega
  | succ f ih =>
    intro index last i h1 h2 hi hbefore
    simp only [promoteLoop]
    by_cases hie : index = i
    · subst hie
      rw [hi]
    · cases ha : attempt index with
      | none => exact absurd ha (hbefore index (Nat.le_refl index) (by omega))
      | some e =>
        exact ih (index + 1) (promoteErrorMessage e) i (by omega) (by omega) hi
          (fun j hj1 hj2 => hbefore j (by omega) hj2)

/-- The loop either returns within the range or raises after exactly the
whole range; it never produces an assert failure. -/
theorem promoteLoop_shape (attempt : Nat → Option String) :
    ∀ (fuel index : Nat) (last : String),
      (∃ n, promoteLoop attempt index last fuel = PromoteResult.ok n ∧
        index < n ∧ n ≤ index + fuel) ∨
      (∃ m, promoteLoop attempt index last fuel = PromoteResult.exn m (index + fuel)) := by
  intro fuel
  induction fuel with
  | zero =>
    intro index last
    exact Or.inr ⟨last, rfl⟩
  | succ f ih =>
    intro index last
    simp only [promoteLoop]
    cases ha : attempt index with
    | none =>
      exact Or.inl ⟨index + 1, rfl, by omega, by omega⟩
    | some e =>
      rcases ih (index + 1) (promoteErrorMessage e) with ⟨n, hn, hn1, hn2⟩ | ⟨m, hm⟩
      · exact Or.inl ⟨n, hn, by omega, by omega⟩
      · refine Or.inr ⟨m, ?_⟩
        rw [show index + (f + 1) = (index + 1) + f from by omega]
        exact hm

/-- If the loop raised, every attempt in the range failed. -/
theorem promoteLoop_exn_all_fail (attempt : Nat → Option String) :
    ∀ (fuel index : Nat) (last m : String) (k : Nat),
      promoteLoop attempt index last fuel = PromoteResult.exn m k →
      ∀ j, index ≤ j → j < index + fuel → attempt j ≠ none := by
  intro fuel
  induction fuel with
  | zero => intro index last m k _ j h1 h2; omega
  | succ f ih =>
    intro index last m k h j h1 h2
    simp only [promoteLoop] at h
    cases ha : attempt index with
    | none =>
      rw [ha] at h
      cases h
    | some e =>
      rw [ha] at h
      by_cases hj : j = index
      · subst hj
        rw [ha]
        simp
      · exact ih (index + 1) (promoteErrorMessage e) m k h j (by omega) (by omega)

/-! ## Claim C1 -/

/-- Claim C1: with the two preconditions satisfied, `PromoteCandidate` makes
at most `retries + 1` attempts; the first successful attempt returns
immediately; it raises `PromoteCandidateException` if and only if all
`retries + 1` attempts failed, carrying the wrapped message of the last
failure; and no other path (in particular no assert failure) produces that
exception. -/
theorem c1_promote_retry (v : String) (attempt : Nat → Option String) (retries : Nat) :
    (∀ n, PromoteCandidate (some v) true attempt retries = PromoteResult.ok n →
      n ≤ retries + 1) ∧
    (∀ m n, PromoteCandidate (some v) true attempt retries = PromoteResult.exn m n →
      n = retries + 1) ∧
    (∀ i, i ≤ retries → attempt i = none → (∀ j, j < i → attempt j ≠ none) →
      PromoteCandidate (some v) true attempt retries = PromoteResult.ok (i + 1)) ∧
    ((∃ m n, PromoteCandidate (some v) true attempt retries = PromoteResult.exn m n) ↔
      ∀ i, i ≤ retries → attempt i ≠ none) ∧
    (∀ e, attempt retries = some e → (∀ i, i ≤ retries → attempt i ≠ none) →
      PromoteCandidate (some v) true attempt retries =
        PromoteResult.exn (promoteErrorMessage e) (retries + 1)) ∧
    (∀ (cv : Option String) (ex : Bool) (m : String) (n : Nat),
      PromoteCandidate cv ex attempt retries = PromoteResult.exn m n →
      cv ≠ none ∧ ex = true) := by
  have hPC : PromoteCandidate (some v) true attempt retries =
      promoteLoop attempt 0 "" (retries + 1) := rfl
  refine ⟨?_, ?_, ?_, ?_, ?_, ?_⟩
  · intro n h
    rw [hPC] at h
    rcases promoteLoop_shape attempt (retries + 1) 0 "" with ⟨n0, hn0, _, hb⟩ | ⟨m0, hm0⟩
    · rw [hn0] at h
      have := PromoteResult.ok.inj h
      omega
    · rw [hm0] at h
      cases h
  · intro m n h
    rw [hPC] at h
    rcases promoteLoop_shape attempt (retries + 1) 0 "" with ⟨n0, hn0, _, _⟩ | ⟨m0, hm0⟩
    · rw [hn0] at h
      cases h
    · rw [hm0] at h
      have := (PromoteResult.exn.inj h).2
      omega
  · intro i hi hnone hbefore
    rw [hPC]
    exact promoteLoop_success attempt (retries + 1) 0 "" i (by omega) (by omega) hnone
      (fun j _ hj2 => hbefore j hj2)
  · constructor
    · rintro ⟨m, n, h⟩ i hi
      rw [hPC] at h
      exact promoteLoop_exn_all_fail attempt (retries + 1) 0 "" m n h i (by omega) (by omega)
    · intro hall
      cases ha : attempt retries with
      | none => exact absurd ha (hall retries (Nat.le_refl retries))
      | some e =>
        refine ⟨promoteErrorMessage e, retries + 1, ?_⟩
        rw [hPC]
        have := promoteLoop_all_fail attempt (retries + 1) 0 "" e (by omega)
          (fun j _ hj => hall j (by omega))
          (by rw [show 0 + (retries + 1) - 1 = retries from by omega]; exact ha)
        rw [this, Nat.zero_add]
  · intro e hlast hall
    rw [hPC]
    have := promoteLoop_all_fail attempt (retries + 1) 0 "" e (by omega)
      (fun j _ hj => hall j (by omega))
      (by rw [show 0 + (retries + 1) - 1 = retries from by omega]; exact hlast)
    rw [this, Nat.zero_add]
  · intro cv ex m n h
    cases cv with
    | none =>
      unfold PromoteCandidate at h
      cases h
    | some w =>
      cases ex with
      | false =>
        unfold PromoteCandidate at h
        cases h
      | true => exact ⟨by simp, rfl⟩

/-- Witness for C1: failures on attempts 0 and 2+, success on attempt 1,
with 3 retries allowed — the call returns after exactly 2 attempts. -/
theorem c1_promote_retry_witness :
    (1 : Nat) ≤ 3 ∧
    PromoteCandidate (some "m") true (fun i => if i = 1 then none else some "boom") 3 =
      PromoteResult.ok 2 :=
  ⟨by decide,
    (c1_promote_retry "m" (fun i => if i = 1 then none else some "boom") 3).2.2.1 1
      (by decide) (by decide) (by decide)⟩
